import Mathlib

/-!
Verification of the gomoku game-state engine (GameLogic.js, GameController.js,
MoveHistory.js, InteractionManager) against its natural-language specification.

The JavaScript source is shallowly embedded: the mutable class state of
`GameLogic` becomes `LogicState`, the coordinator (`GameController` together
with the event wiring through `InteractionManager` and `MoveHistory`) becomes
`CtrlState`, and every method that mutates state becomes a pure function from
state to state (plus its returned value).  Board cells hold the source's raw
encoding: 0 = empty, 1 = black (player A), 2 = white (player B).  Coordinates
are `Int` because the JavaScript code performs signed arithmetic on them
(`checkWin` walks to `row - dx` which can be negative before the bounds test).
-/

namespace Gomoku

/-- A board is the source's `boardData`: an array of rows of cell values. -/
abbrev Board := List (List Nat)

/-- State of a `GameLogic` instance (GameLogic.js fields). -/
structure LogicState where
  boardSize : Nat
  boardData : Board
  currentPlayer : Nat
  stepNumber : Nat
  gameOver : Bool
  winner : Option Nat
deriving DecidableEq

/-- `GameLogic.reset` / constructor: an all-empty board, black to move,
step 1, game not over, no winner. -/
def freshLogic (n : Nat) : LogicState :=
  ⟨n, List.replicate n (List.replicate n 0), 1, 1, false, none⟩

/-- Read `boardData[row][col]`; out-of-range reads are only ever performed by
the source behind an `isValidPosition` guard, so the default 0 is never
observed on guarded paths. -/
def cellAt (b : Board) (row col : Int) : Nat :=
  (b.getD row.toNat []).getD col.toNat 0

/-- Write `boardData[row][col] = v`. -/
def setCell (b : Board) (row col : Int) (v : Nat) : Board :=
  b.set row.toNat ((b.getD row.toNat []).set col.toNat v)

/-- `GameLogic.isValidPosition`. -/
def isValidPosition (n : Nat) (row col : Int) : Bool :=
  decide (0 ≤ row) && decide (row < (n : Int)) &&
  decide (0 ≤ col) && decide (col < (n : Int))

/-- `GameLogic.canPlaceStone`: not over, in bounds, cell empty. -/
def canPlaceStone (s : LogicState) (row col : Int) : Bool :=
  !s.gameOver && isValidPosition s.boardSize row col &&
  decide (cellAt s.boardData row col = 0)

/-- One `while` loop of `GameLogic.checkWin`: starting at (r, c), walk in
direction (dx, dy) collecting consecutive in-bounds cells owned by `player`.
The fuel is the board dimension: a straight walk can visit at most `n`
in-bounds cells, so the fuel never cuts a run short. -/
def walkDir (b : Board) (n player : Nat) : Nat → Int → Int → Int → Int → List (Int × Int)
  | 0, _, _, _, _ => []
  | fuel + 1, r, c, dx, dy =>
    if isValidPosition n r c && decide (cellAt b r c = player) then
      (r, c) :: walkDir b n player fuel (r + dx) (c + dy) dx dy
    else []

/-- The source's per-direction `count` variable: the placed cell plus the
forward walk plus the backward walk. -/
def lineLen (b : Board) (n player : Nat) (row col dx dy : Int) : Nat :=
  1 + (walkDir b n player n (row + dx) (col + dy) dx dy).length
    + (walkDir b n player n (row - dx) (col - dy) (-dx) (-dy)).length

/-- The source's per-direction `winningPositions` list: the placed cell first,
then the forward cells, then the backward cells. -/
def linePositions (b : Board) (n player : Nat) (row col dx dy : Int) : List (Int × Int) :=
  (row, col) :: walkDir b n player n (row + dx) (col + dy) dx dy
    ++ walkDir b n player n (row - dx) (col - dy) (-dx) (-dy)

/-- The `for (const [dx, dy] of directions)` loop body of `checkWin`:
return the first direction whose count is exactly 5. -/
def checkWinDirs (b : Board) (n player : Nat) (row col : Int) :
    List (Int × Int) → Option (List (Int × Int))
  | [] => none
  | (dx, dy) :: rest =>
    if lineLen b n player row col dx dy = 5 then
      some (linePositions b n player row col dx dy)
    else checkWinDirs b n player row col rest

/-- The direction table of `checkWin`, in source order. -/
def directions : List (Int × Int) := [(0, 1), (1, 0), (1, 1), (1, -1)]

/-- `GameLogic.checkWin`: `none` plays the role of the source's `false`. -/
def checkWin (s : LogicState) (row col : Int) : Option (List (Int × Int)) :=
  let player := cellAt s.boardData row col
  if player = 0 then none
  else checkWinDirs s.boardData s.boardSize player row col directions

/-- The source's `moveData` record (the `timestamp` that `MoveHistory.addMove`
adds is wall-clock noise and is not modelled). -/
structure MoveData where
  row : Int
  col : Int
  player : Nat
  step : Nat
deriving DecidableEq

/-- Return value of `GameLogic.placeStone`: `false`, or a success record
with or without `win`. -/
inductive PlaceResult where
  | rejected
  | placed (moveData : MoveData)
  | win (winningPositions : List (Int × Int)) (moveData : MoveData)
deriving DecidableEq

def PlaceResult.isWin : PlaceResult → Bool
  | .win _ _ => true
  | _ => false

def PlaceResult.isPlaced : PlaceResult → Bool
  | .placed _ => true
  | _ => false

/-- The intermediate state of `placeStone` right after
`boardData[row][col] = currentPlayer`. -/
def placedBoard (s : LogicState) (row col : Int) : LogicState :=
  { s with boardData := setCell s.boardData row col s.currentPlayer }

/-- `GameLogic.placeStone`. -/
def placeStone (s : LogicState) (row col : Int) : LogicState × PlaceResult :=
  if canPlaceStone s row col = false then (s, .rejected)
  else
    let moveData : MoveData := ⟨row, col, s.currentPlayer, s.stepNumber⟩
    let s1 := placedBoard s row col
    match checkWin s1 row col with
    | some wps => ({ s1 with gameOver := true, winner := some s.currentPlayer }, .win wps moveData)
    | none =>
      ({ s1 with stepNumber := s.stepNumber + 1,
                 currentPlayer := if s.currentPlayer = 1 then 2 else 1 }, .placed moveData)

/-- `GameLogic.getStone`. -/
def getStone (s : LogicState) (row col : Int) : Option Nat :=
  if isValidPosition s.boardSize row col then some (cellAt s.boardData row col) else none

/-- `GameLogic.isGameOver`. -/
def isGameOver (s : LogicState) : Bool := s.gameOver

/-- The full-board scan inside `GameLogic.isDraw`. -/
def boardFull (s : LogicState) : Bool :=
  (List.range s.boardSize).all fun i =>
    (List.range s.boardSize).all fun j =>
      decide (cellAt s.boardData (i : Int) (j : Int) ≠ 0)

/-- `GameLogic.isDraw`. -/
def isDraw (s : LogicState) : Bool :=
  if s.gameOver && s.winner == none then true else boardFull s

/-- Events emitted by the `MoveHistory` module (MovieHistory.js). -/
inductive HistEvent where
  | moveAdded (m : MoveData)
  | moveUndone (m : MoveData)
  | historyCleared
  | historyTruncated
deriving DecidableEq

/-- `MoveHistory.addMove`: push to the end; if the length now exceeds
`maxHistorySize`, shift one entry off the front; then emit `moveAdded`.
The returned list is the complete set of events the call emits: the
front-eviction itself emits nothing. -/
def addMove (h : List MoveData) (maxSize : Nat) (m : MoveData) :
    List MoveData × List HistEvent :=
  let h1 := h ++ [m]
  (if h1.length > maxSize then h1.drop 1 else h1, [.moveAdded m])

/-- `MoveHistory.setMaxHistorySize`: clamp to at least 1; truncate from the
front when the current history exceeds the new cap, emitting
`historyTruncated` in that case only. -/
def setMaxHistorySize (h : List MoveData) (size : Nat) :
    (List MoveData × Nat) × List HistEvent :=
  let newMax := max 1 size
  if h.length > newMax then ((h.drop (h.length - newMax), newMax), [.historyTruncated])
  else ((h, newMax), [])

/-- Session phase of the controller (`GameController.gameState`). -/
inductive GState where
  | idle
  | playing
  | paused
  | finished
deriving DecidableEq

/-- Core state owned by the coordinator: the `GameLogic` instance, the
`MoveHistory` log with its cap, the controller's `gameState`, and the
`InteractionManager.isEnabled` gate that `pauseGame`/`resumeGame` toggle. -/
structure CtrlState where
  logic : LogicState
  history : List MoveData
  maxHistorySize : Nat
  gameState : GState
  enabled : Bool
deriving DecidableEq

/-- A freshly initialised controller with config `{boardSize := n,
maxHistorySize := maxH}`: `init` puts `gameState` to `playing`. -/
def mkCtrl (n maxH : Nat) : CtrlState :=
  ⟨freshLogic n, [], maxH, .playing, true⟩

/-- The default controller configuration (boardSize 15, maxHistorySize 1000). -/
def initCtrl : CtrlState := mkCtrl 15 1000

/-- A confirmed placement as wired by `setupModuleConnections` and
`bindControllerEvents`: `gameLogic.placeStone`, then the `stonePlaced`
listener appends to `MoveHistory`, and the `gameWin` listener moves
`gameState` to `finished`.  A winning placement emits `gameWin` instead of
`stonePlaced`, so it is not appended to the history. -/
def applyPlace (cs : CtrlState) (row col : Int) : CtrlState × PlaceResult :=
  match placeStone cs.logic row col with
  | (l, .rejected) => ({ cs with logic := l }, .rejected)
  | (l, .placed m) =>
    ({ cs with logic := l, history := (addMove cs.history cs.maxHistorySize m).1 }, .placed m)
  | (l, .win w m) => ({ cs with logic := l, gameState := .finished }, .win w m)

/-- The core-state effect of a confirmed board click
(`InteractionManager.handleCellClick` → `confirmPlacement`): ignored outright
when interaction is disabled; marking mode and the preview step touch no core
state, and the early `isGameOver`/`canPlaceStone` returns coincide with
`placeStone`'s own rejection, which leaves the state unchanged. -/
def clickPlace (cs : CtrlState) (row col : Int) : CtrlState :=
  if cs.enabled then (applyPlace cs row col).1 else cs

/-- `GameController.canUndo` (with history enabled, as in the default config). -/
def ctrlCanUndo (cs : CtrlState) : Bool :=
  cs.gameState == GState.playing && decide (0 < cs.history.length)

/-- `GameController.performUndo`: reject unless `canUndo`; otherwise pop the
last move from the history and write the inverse directly into the
`GameLogic` fields, then force `gameState` back to `playing`. -/
def performUndo (cs : CtrlState) : CtrlState × Bool :=
  if ctrlCanUndo cs = false then (cs, false)
  else
    match cs.history.getLast? with
    | none => (cs, false)
    | some m =>
      ({ cs with
          logic := { cs.logic with
                      boardData := setCell cs.logic.boardData m.row m.col 0,
                      currentPlayer := m.player,
                      stepNumber := m.step,
                      gameOver := false,
                      winner := none },
          history := cs.history.dropLast,
          gameState := .playing }, true)

/-- `GameController.resetGame` → `InteractionManager.resetGame` →
`gameLogic.reset`, whose `gameReset` event sets `gameState` to `playing` and
clears the move history.  The interaction-enabled flag is not touched. -/
def resetCtrl (cs : CtrlState) : CtrlState :=
  { cs with logic := freshLogic cs.logic.boardSize, history := [], gameState := .playing }

/-- `GameController.pauseGame`. -/
def pauseGame (cs : CtrlState) : CtrlState × Bool :=
  if cs.gameState == GState.playing then
    ({ cs with gameState := .paused, enabled := false }, true)
  else (cs, false)

/-- `GameController.resumeGame`. -/
def resumeGame (cs : CtrlState) : CtrlState × Bool :=
  if cs.gameState == GState.paused then
    ({ cs with gameState := .playing, enabled := true }, true)
  else (cs, false)

/-- Replay a list of (row, col) placements through the coordinator wiring. -/
def playMoves (cs : CtrlState) (ms : List (Int × Int)) : CtrlState :=
  ms.foldl (fun acc mv => (applyPlace acc mv.1 mv.2).1) cs

/-- `GameController.importGame`.  The argument abstracts `JSON.parse` of the
input string: `none` models a parse failure or data with `boardState` /
`boardState.boardData` missing, where the method throws before mutating
anything and the catch block returns `false`.  `some ms` models well-formed
data whose `boardState.moveHistory` contains moves with the given (row, col)
fields: the method resets the game, replays every move through
`gameLogic.placeStone` ignoring each move's success flag (failed moves are
silently skipped), and returns `true`. -/
def importGame (cs : CtrlState) (d : Option (List (Int × Int))) : CtrlState × Bool :=
  match d with
  | none => (cs, false)
  | some ms => (playMoves (resetCtrl cs) ms, true)

/-- One invocation of a coordinator operation. -/
inductive Step : CtrlState → CtrlState → Prop where
  | place (cs : CtrlState) (row col : Int) : Step cs (applyPlace cs row col).1
  | undo (cs : CtrlState) : Step cs (performUndo cs).1
  | reset (cs : CtrlState) : Step cs (resetCtrl cs)
  | pause (cs : CtrlState) : Step cs (pauseGame cs).1
  | resume (cs : CtrlState) : Step cs (resumeGame cs).1
  | imported (cs : CtrlState) (d : Option (List (Int × Int))) : Step cs (importGame cs d).1

/-- States reachable from a freshly initialised controller with config
`{boardSize := n, maxHistorySize := maxH}`. -/
inductive Reachable (n maxH : Nat) : CtrlState → Prop where
  | init : Reachable n maxH (mkCtrl n maxH)
  | step {cs cs' : CtrlState} : Reachable n maxH cs → Step cs cs' → Reachable n maxH cs'

theorem reachable_playMoves {n maxH : Nat} {cs : CtrlState}
    (h : Reachable n maxH cs) (ms : List (Int × Int)) :
    Reachable n maxH (playMoves cs ms) := by
  induction ms generalizing cs with
  | nil => exact h
  | cons mv rest ih => exact ih (h.step (Step.place cs mv.1 mv.2))

/-- Well-formedness of a board: `n` rows of `n` cells, as produced by
`GameLogic.reset` and preserved by every placement. -/
def boardWFb (b : Board) (n : Nat) : Bool :=
  (b.length == n) && b.all (fun r => r.length == n)

/-- Number of occupied cells of a row. -/
def rowCount (l : List Nat) : Nat := l.countP (fun v => v != 0)

/-- Number of occupied cells of the whole board. -/
def countNonEmpty (b : Board) : Nat := (b.map rowCount).sum

theorem getD_set_self {α : Type} (l : List α) (i : Nat) (v d : α) (h : i < l.length) :
    (l.set i v).getD i d = v := by
  induction l generalizing i with
  | nil => simp at h
  | cons a t ih =>
    cases i with
    | zero => rfl
    | succ j => exact ih j (by simpa using h)

theorem set_getD_self {α : Type} (l : List α) (i : Nat) (d : α) (h : i < l.length) :
    l.set i (l.getD i d) = l := by
  induction l generalizing i with
  | nil => simp at h
  | cons a t ih =>
    cases i with
    | zero => rfl
    | succ j => simpa using ih j (by simpa using h)

theorem getD_mem {α : Type} (l : List α) (i : Nat) (d : α) (h : i < l.length) :
    l.getD i d ∈ l := by
  induction l generalizing i with
  | nil => simp at h
  | cons a t ih =>
    cases i with
    | zero => simp
    | succ j => exact List.mem_cons_of_mem a (ih j (by simpa using h))

theorem rowCount_set_le (l : List Nat) (i : Nat) :
    rowCount l ≤ rowCount (l.set i 0) + 1 := by
  induction l generalizing i with
  | nil => simp [rowCount]
  | cons a t ih =>
    cases i with
    | zero =>
      simp only [List.set_cons_zero, rowCount, List.countP_cons]
      have := List.countP_le_length (l := t) (p := fun v => v != 0)
      simp only [rowCount] at *
      split <;> omega
    | succ j =>
      simp only [List.set_cons_succ, rowCount, List.countP_cons]
      have := ih j
      simp only [rowCount] at this
      omega

theorem rowCount_set_of_zero (l : List Nat) (i v : Nat)
    (hi : i < l.length) (h0 : l.getD i 0 = 0) (hv : v ≠ 0) :
    rowCount (l.set i v) = rowCount l + 1 := by
  induction l generalizing i with
  | nil => simp at hi
  | cons a t ih =>
    cases i with
    | zero =>
      simp only [List.getD_cons_zero] at h0
      subst h0
      simp only [List.set_cons_zero, rowCount, List.countP_cons]
      have hvb : (v != 0) = true := by simpa using hv
      simp [hvb]
    | succ j =>
      simp only [List.getD_cons_succ] at h0
      have := ih j (by simpa using hi) h0
      simp only [List.set_cons_succ, rowCount, List.countP_cons] at *
      omega

theorem countNE_set (b : Board) (i : Nat) (r' : List Nat) (h : i < b.length) :
    countNonEmpty (b.set i r') + rowCount (b.getD i []) = countNonEmpty b + rowCount r' := by
  induction b generalizing i with
  | nil => simp at h
  | cons a t ih =>
    cases i with
    | zero => simp [countNonEmpty]; omega
    | succ j =>
      have := ih j (by simpa using h)
      simp only [List.set_cons_succ, List.getD_cons_succ, countNonEmpty, List.map_cons,
        List.sum_cons] at *
      omega

theorem boardWFb_length {b : Board} {n : Nat} (hwf : boardWFb b n = true) : b.length = n := by
  simp only [boardWFb, Bool.and_eq_true, beq_iff_eq] at hwf
  exact hwf.1

theorem boardWFb_row {b : Board} {n : Nat} (hwf : boardWFb b n = true) :
    ∀ r ∈ b, r.length = n := by
  simp only [boardWFb, Bool.and_eq_true, beq_iff_eq, List.all_eq_true] at hwf
  intro r hr
  exact hwf.2 r hr

theorem valid_bounds {n : Nat} {row col : Int} (hv : isValidPosition n row col = true) :
    row.toNat < n ∧ col.toNat < n ∧ 0 ≤ row ∧ 0 ≤ col := by
  simp only [isValidPosition, Bool.and_eq_true, decide_eq_true_eq] at hv
  omega

theorem cellAt_setCell_self {b : Board} {n : Nat} {row col : Int}
    (hwf : boardWFb b n = true) (hv : isValidPosition n row col = true) (v : Nat) :
    cellAt (setCell b row col v) row col = v := by
  obtain ⟨hr, hc, _, _⟩ := valid_bounds hv
  have hrl : row.toNat < b.length := by rw [boardWFb_length hwf]; exact hr
  have hrow : (b.getD row.toNat []).length = n :=
    boardWFb_row hwf _ (getD_mem b row.toNat [] hrl)
  unfold cellAt setCell
  rw [getD_set_self _ _ _ _ hrl, getD_set_self _ _ _ _ (by rw [hrow]; exact hc)]

theorem setCell_restore {b : Board} {n : Nat} {row col : Int}
    (hwf : boardWFb b n = true) (hv : isValidPosition n row col = true)
    (h0 : cellAt b row col = 0) (v : Nat) :
    setCell (setCell b row col v) row col 0 = b := by
  obtain ⟨hr, hc, _, _⟩ := valid_bounds hv
  have hrl : row.toNat < b.length := by rw [boardWFb_length hwf]; exact hr
  have hrow : (b.getD row.toNat []).length = n :=
    boardWFb_row hwf _ (getD_mem b row.toNat [] hrl)
  have hcl : col.toNat < (b.getD row.toNat []).length := by rw [hrow]; exact hc
  have h0' : (b.getD row.toNat []).getD col.toNat 0 = 0 := h0
  have h1 : (b.getD row.toNat []).set col.toNat 0 = b.getD row.toNat [] := by
    have h2 := set_getD_self (b.getD row.toNat []) col.toNat 0 hcl
    rwa [h0'] at h2
  unfold setCell
  rw [getD_set_self _ _ _ _ hrl, List.set_set, List.set_set, h1,
    set_getD_self b row.toNat [] hrl]

theorem boardWFb_setCell {b : Board} {n : Nat} (row col : Int) (v : Nat)
    (hwf : boardWFb b n = true) : boardWFb (setCell b row col v) n = true := by
  by_cases hrl : row.toNat < b.length
  · simp only [boardWFb, Bool.and_eq_true, beq_iff_eq, List.all_eq_true] at *
    constructor
    · rw [setCell, List.length_set]; exact hwf.1
    · intro r hr
      rcases List.mem_or_eq_of_mem_set hr with hmem | heq
      · exact hwf.2 r hmem
      · subst heq
        rw [List.length_set]
        exact hwf.2 _ (getD_mem b row.toNat [] hrl)
  · unfold setCell
    rw [List.set_eq_of_length_le (by omega)]
    exact hwf

theorem countNE_setCell_pos {b : Board} {n : Nat} {row col : Int}
    (hwf : boardWFb b n = true) (hv : isValidPosition n row col = true)
    (h0 : cellAt b row col = 0) {v : Nat} (hvne : v ≠ 0) :
    countNonEmpty (setCell b row col v) = countNonEmpty b + 1 := by
  obtain ⟨hr, hc, _, _⟩ := valid_bounds hv
  have hrl : row.toNat < b.length := by rw [boardWFb_length hwf]; exact hr
  have hrow : (b.getD row.toNat []).length = n :=
    boardWFb_row hwf _ (getD_mem b row.toNat [] hrl)
  have hset := countNE_set b row.toNat ((b.getD row.toNat []).set col.toNat v) hrl
  have hrowc := rowCount_set_of_zero (b.getD row.toNat []) col.toNat v
    (by rw [hrow]; exact hc) h0 hvne
  unfold setCell
  omega

theorem countNE_setCell_zero (b : Board) (row col : Int) :
    countNonEmpty b ≤ countNonEmpty (setCell b row col 0) + 1 := by
  by_cases hrl : row.toNat < b.length
  · have hset := countNE_set b row.toNat ((b.getD row.toNat []).set col.toNat 0) hrl
    have hle := rowCount_set_le (b.getD row.toNat []) col.toNat
    unfold setCell
    omega
  · unfold setCell
    rw [List.set_eq_of_length_le (by omega)]
    omega

theorem countNE_le {b : Board} {n : Nat} (hwf : boardWFb b n = true) :
    countNonEmpty b ≤ n * n := by
  unfold countNonEmpty
  calc (b.map rowCount).sum ≤ (b.map (fun _ => n)).sum := by
        apply List.sum_le_sum
        intro r hr
        calc rowCount r ≤ r.length := List.countP_le_length _
          _ = n := boardWFb_row hwf r hr
    _ ≤ n * n := by
        rw [List.map_const', List.sum_replicate, smul_eq_mul, boardWFb_length hwf]

theorem boardWFb_fresh (n : Nat) :
    boardWFb (List.replicate n (List.replicate n 0)) n = true := by
  unfold boardWFb
  rw [Bool.and_eq_true]
  constructor
  · simp
  · rw [List.all_eq_true]
    intro r hr
    rw [List.eq_of_mem_replicate hr]
    simp

theorem canPlaceStone_inv {s : LogicState} {row col : Int}
    (h : canPlaceStone s row col = true) :
    s.gameOver = false ∧ isValidPosition s.boardSize row col = true ∧
    cellAt s.boardData row col = 0 := by
  simp only [canPlaceStone, Bool.and_eq_true, Bool.not_eq_true', decide_eq_true_eq] at h
  exact ⟨h.1.1, h.1.2, h.2⟩

theorem placeStone_rejected {s : LogicState} {row col : Int}
    (h : canPlaceStone s row col = false) :
    placeStone s row col = (s, .rejected) := by
  unfold placeStone
  rw [if_pos h]

theorem placeStone_placed {s : LogicState} {row col : Int}
    (hcan : canPlaceStone s row col = true)
    (hwin : checkWin (placedBoard s row col) row col = none) :
    placeStone s row col =
      ({ placedBoard s row col with
          stepNumber := s.stepNumber + 1,
          currentPlayer := if s.currentPlayer = 1 then 2 else 1 },
        .placed ⟨row, col, s.currentPlayer, s.stepNumber⟩) := by
  unfold placeStone
  rw [if_neg (by simp [hcan])]
  simp only [hwin]

theorem placeStone_win {s : LogicState} {row col : Int} {w : List (Int × Int)}
    (hcan : canPlaceStone s row col = true)
    (hwin : checkWin (placedBoard s row col) row col = some w) :
    placeStone s row col =
      ({ placedBoard s row col with gameOver := true, winner := some s.currentPlayer },
        .win w ⟨row, col, s.currentPlayer, s.stepNumber⟩) := by
  unfold placeStone
  rw [if_neg (by simp [hcan])]
  simp only [hwin]

theorem applyPlace_rejected {cs : CtrlState} {row col : Int}
    (h : canPlaceStone cs.logic row col = false) :
    applyPlace cs row col = (cs, .rejected) := by
  unfold applyPlace
  rw [placeStone_rejected h]

theorem applyPlace_placed {cs : CtrlState} {row col : Int}
    (hcan : canPlaceStone cs.logic row col = true)
    (hwin : checkWin (placedBoard cs.logic row col) row col = none) :
    applyPlace cs row col =
      ({ cs with
          logic := { placedBoard cs.logic row col with
                      stepNumber := cs.logic.stepNumber + 1,
                      currentPlayer := if cs.logic.currentPlayer = 1 then 2 else 1 },
          history := (addMove cs.history cs.maxHistorySize
            ⟨row, col, cs.logic.currentPlayer, cs.logic.stepNumber⟩).1 },
        .placed ⟨row, col, cs.logic.currentPlayer, cs.logic.stepNumber⟩) := by
  unfold applyPlace
  rw [placeStone_placed hcan hwin]

theorem applyPlace_win {cs : CtrlState} {row col : Int} {w : List (Int × Int)}
    (hcan : canPlaceStone cs.logic row col = true)
    (hwin : checkWin (placedBoard cs.logic row col) row col = some w) :
    applyPlace cs row col =
      ({ cs with
          logic := { placedBoard cs.logic row col with
                      gameOver := true, winner := some cs.logic.currentPlayer },
          gameState := .finished },
        .win w ⟨row, col, cs.logic.currentPlayer, cs.logic.stepNumber⟩) := by
  unfold applyPlace
  rw [placeStone_win hcan hwin]

theorem addMove_no_evict (h : List MoveData) (maxSize : Nat) (m : MoveData)
    (hlt : h.length < maxSize) : (addMove h maxSize m).1 = h ++ [m] := by
  unfold addMove
  simp only [List.length_append, List.length_cons, List.length_nil]
  rw [if_neg (by omega)]

/-- Structural invariant of every reachable coordinator state with a board
small enough for its history cap (`n * n < maxH` holds for the default
15 × 15 board with cap 1000): the next step number always exceeds the history
length by one, recorded steps are 1, 2, …, the history never outgrows the
number of stones on the board, and players are the source's 1/2 encoding. -/
def Inv (n maxH : Nat) (cs : CtrlState) : Prop :=
  cs.logic.boardSize = n ∧
  cs.maxHistorySize = maxH ∧
  boardWFb cs.logic.boardData n = true ∧
  cs.logic.stepNumber = cs.history.length + 1 ∧
  cs.history.map MoveData.step = (List.range cs.history.length).map (· + 1) ∧
  cs.history.length ≤ countNonEmpty cs.logic.boardData ∧
  (cs.logic.currentPlayer = 1 ∨ cs.logic.currentPlayer = 2) ∧
  (∀ m ∈ cs.history, m.player = 1 ∨ m.player = 2)

theorem inv_mkCtrl (n maxH : Nat) : Inv n maxH (mkCtrl n maxH) := by
  refine ⟨rfl, rfl, boardWFb_fresh n, rfl, rfl, Nat.zero_le _, Or.inl rfl, ?_⟩
  intro m hm
  simp [mkCtrl] at hm

theorem inv_resetCtrl {n maxH : Nat} {cs : CtrlState} (h : Inv n maxH cs) :
    Inv n maxH (resetCtrl cs) := by
  obtain ⟨hbs, hmax, _, _, _, _, _, _⟩ := h
  refine ⟨hbs, hmax, ?_, rfl, rfl, Nat.zero_le _, Or.inl rfl, ?_⟩
  · simpa [resetCtrl, freshLogic, hbs] using boardWFb_fresh n
  · intro m hm
    simp [resetCtrl] at hm

theorem inv_applyPlace {n maxH : Nat} {cs : CtrlState} (hcap : n * n < maxH)
    (hinv : Inv n maxH cs) (row col : Int) :
    Inv n maxH (applyPlace cs row col).1 := by
  obtain ⟨hbs, hmax, hwf, hstep, hsteps, hcount, hcp, hhp⟩ := hinv
  by_cases hcan : canPlaceStone cs.logic row col = true
  · obtain ⟨_, hvalid, hcell⟩ := canPlaceStone_inv hcan
    rw [hbs] at hvalid
    have hcpne : cs.logic.currentPlayer ≠ 0 := by rcases hcp with h | h <;> omega
    have hwf' : boardWFb (setCell cs.logic.boardData row col cs.logic.currentPlayer) n = true :=
      boardWFb_setCell row col _ hwf
    have hcnt' := countNE_setCell_pos hwf hvalid hcell hcpne
    have hlen : cs.history.length < cs.maxHistorySize := by
      rw [hmax]
      exact lt_of_le_of_lt (le_trans hcount (countNE_le hwf)) hcap
    rcases hco : checkWin (placedBoard cs.logic row col) row col with _ | w
    · rw [applyPlace_placed hcan hco]
      dsimp only [placedBoard]
      refine ⟨hbs, hmax, hwf', ?_, ?_, ?_, ?_, ?_⟩
      · simp only [addMove_no_evict _ _ _ hlen, List.length_append, List.length_cons,
          List.length_nil, hstep]
      · simp only [addMove_no_evict _ _ _ hlen, List.map_append, List.length_append,
          List.length_cons, List.length_nil, hsteps, List.map_cons, List.map_nil]
        have h1 : cs.history.length + (0 + 1) = (cs.history.length).succ := by omega
        rw [h1, List.range_succ, List.map_append]
        simp [hstep]
      · simp only [addMove_no_evict _ _ _ hlen, List.length_append, List.length_cons,
          List.length_nil, hcnt']
        omega
      · rcases hcp with h | h <;> simp [h]
      · intro m hm
        simp only [addMove_no_evict _ _ _ hlen, List.mem_append, List.mem_cons,
          List.not_mem_nil, or_false] at hm
        rcases hm with hm | hm
        · exact hhp m hm
        · subst hm
          exact hcp
    · rw [applyPlace_win hcan hco]
      dsimp only [placedBoard]
      refine ⟨hbs, hmax, hwf', hstep, hsteps, ?_, hcp, hhp⟩
      show cs.history.length ≤
        countNonEmpty (setCell cs.logic.boardData row col cs.logic.currentPlayer)
      rw [hcnt']
      omega
  · rw [applyPlace_rejected (by simpa using hcan)]
    exact ⟨hbs, hmax, hwf, hstep, hsteps, hcount, hcp, hhp⟩

theorem performUndo_fail {cs : CtrlState} (h : ctrlCanUndo cs = false) :
    performUndo cs = (cs, false) := by
  unfold performUndo
  rw [if_pos h]

theorem ctrlCanUndo_true {cs : CtrlState} (hps : cs.gameState = GState.playing)
    (hne : cs.history ≠ []) : ctrlCanUndo cs = true := by
  simp [ctrlCanUndo, hps, List.length_pos.mpr hne]

theorem performUndo_success {cs : CtrlState} (hps : cs.gameState = GState.playing)
    (hne : cs.history ≠ []) :
    performUndo cs =
      ({ cs with
          logic := { cs.logic with
                      boardData := setCell cs.logic.boardData
                        (cs.history.getLast hne).row (cs.history.getLast hne).col 0,
                      currentPlayer := (cs.history.getLast hne).player,
                      stepNumber := (cs.history.getLast hne).step,
                      gameOver := false,
                      winner := none },
          history := cs.history.dropLast,
          gameState := .playing }, true) := by
  unfold performUndo
  rw [if_neg (by simp [ctrlCanUndo_true hps hne]), List.getLast?_eq_getLast _ hne]

theorem inv_performUndo {n maxH : Nat} {cs : CtrlState} (hinv : Inv n maxH cs) :
    Inv n maxH (performUndo cs).1 := by
  by_cases hcu : ctrlCanUndo cs = false
  · rw [performUndo_fail hcu]
    exact hinv
  · have hcu' : ctrlCanUndo cs = true := by
      cases h : ctrlCanUndo cs
      · exact absurd h hcu
      · rfl
    have hps : cs.gameState = GState.playing := by
      simp only [ctrlCanUndo, Bool.and_eq_true, beq_iff_eq, decide_eq_true_eq] at hcu'
      exact hcu'.1
    have hlen : 0 < cs.history.length := by
      simp only [ctrlCanUndo, Bool.and_eq_true, beq_iff_eq, decide_eq_true_eq] at hcu'
      exact hcu'.2
    have hne : cs.history ≠ [] := List.length_pos.mp hlen
    obtain ⟨hbs, hmax, hwf, hstep, hsteps, hcount, hcp, hhp⟩ := hinv
    have hconcat : cs.history.dropLast ++ [cs.history.getLast hne] = cs.history :=
      List.dropLast_append_getLast hne
    have hdl : cs.history.dropLast.length = cs.history.length - 1 := List.length_dropLast _
    have hsplit : cs.history.dropLast.map MoveData.step =
        (List.range (cs.history.length - 1)).map (· + 1) ∧
        (cs.history.getLast hne).step = cs.history.length := by
      have h1 : (cs.history.dropLast ++ [cs.history.getLast hne]).map MoveData.step =
          (List.range cs.history.length).map (· + 1) := by
        rw [hconcat]
        exact hsteps
      rw [List.map_append] at h1
      have h2 : cs.history.length = (cs.history.length - 1).succ := by omega
      rw [h2, List.range_succ, List.map_append] at h1
      have h3 := List.append_inj h1 (by simp [hdl])
      refine ⟨h3.1, ?_⟩
      have h4 := h3.2
      simp only [List.map_cons, List.map_nil, List.cons.injEq] at h4
      omega
    rw [performUndo_success hps hne]
    dsimp only
    refine ⟨hbs, hmax, boardWFb_setCell _ _ _ hwf, ?_, ?_, ?_, ?_, ?_⟩
    · show (cs.history.getLast hne).step = cs.history.dropLast.length + 1
      rw [hsplit.2, hdl]
      omega
    · rw [hdl]
      exact hsplit.1
    · show cs.history.dropLast.length ≤ countNonEmpty
        (setCell cs.logic.boardData (cs.history.getLast hne).row (cs.history.getLast hne).col 0)
      have h5 := countNE_setCell_zero cs.logic.boardData
        (cs.history.getLast hne).row (cs.history.getLast hne).col
      omega
    · exact hhp _ (List.getLast_mem hne)
    · intro m' hm'
      apply hhp
      rw [← hconcat]
      exact List.mem_append_left _ hm'

theorem inv_pauseGame {n maxH : Nat} {cs : CtrlState} (hinv : Inv n maxH cs) :
    Inv n maxH (pauseGame cs).1 := by
  obtain ⟨hbs, hmax, hwf, hstep, hsteps, hcount, hcp, hhp⟩ := hinv
  unfold pauseGame
  split
  · exact ⟨hbs, hmax, hwf, hstep, hsteps, hcount, hcp, hhp⟩
  · exact ⟨hbs, hmax, hwf, hstep, hsteps, hcount, hcp, hhp⟩

theorem inv_resumeGame {n maxH : Nat} {cs : CtrlState} (hinv : Inv n maxH cs) :
    Inv n maxH (resumeGame cs).1 := by
  obtain ⟨hbs, hmax, hwf, hstep, hsteps, hcount, hcp, hhp⟩ := hinv
  unfold resumeGame
  split
  · exact ⟨hbs, hmax, hwf, hstep, hsteps, hcount, hcp, hhp⟩
  · exact ⟨hbs, hmax, hwf, hstep, hsteps, hcount, hcp, hhp⟩

theorem inv_playMoves {n maxH : Nat} {cs : CtrlState} (hcap : n * n < maxH)
    (hinv : Inv n maxH cs) (ms : List (Int × Int)) :
    Inv n maxH (playMoves cs ms) := by
  induction ms generalizing cs with
  | nil => exact hinv
  | cons mv rest ih => exact ih (inv_applyPlace hcap hinv mv.1 mv.2)

theorem inv_importGame {n maxH : Nat} {cs : CtrlState} (hcap : n * n < maxH)
    (hinv : Inv n maxH cs) (d : Option (List (Int × Int))) :
    Inv n maxH (importGame cs d).1 := by
  cases d with
  | none => exact hinv
  | some ms => exact inv_playMoves hcap (inv_resetCtrl hinv) ms

/-- Every reachable state of a controller whose board is small enough for its
history cap satisfies the structural invariant. -/
theorem inv_of_reachable {n maxH : Nat} {cs : CtrlState} (hcap : n * n < maxH)
    (h : Reachable n maxH cs) : Inv n maxH cs := by
  induction h with
  | init => exact inv_mkCtrl n maxH
  | step _ hs ih =>
    cases hs with
    | place row col => exact inv_applyPlace hcap ih row col
    | undo => exact inv_performUndo ih
    | reset => exact inv_resetCtrl ih
    | pause => exact inv_pauseGame ih
    | resume => exact inv_resumeGame ih
    | imported d => exact inv_importGame hcap ih d

theorem checkWinDirs_isSome (b : Board) (n player : Nat) (row col : Int)
    (ds : List (Int × Int)) :
    (checkWinDirs b n player row col ds).isSome = true ↔
    ∃ d ∈ ds, lineLen b n player row col d.1 d.2 = 5 := by
  induction ds with
  | nil => simp [checkWinDirs]
  | cons d rest ih =>
    obtain ⟨dx, dy⟩ := d
    unfold checkWinDirs
    by_cases h : lineLen b n player row col dx dy = 5
    · rw [if_pos h]
      simp only [Option.isSome_some, true_iff]
      exact ⟨(dx, dy), List.mem_cons_self _ _, h⟩
    · rw [if_neg h, ih]
      constructor
      · rintro ⟨e, he, hl⟩
        exact ⟨e, List.mem_cons_of_mem _ he, hl⟩
      · rintro ⟨e, he, hl⟩
        rcases List.mem_cons.mp he with rfl | he'
        · exact absurd hl h
        · exact ⟨e, he', hl⟩

theorem checkWin_placedBoard {s : LogicState} {row col : Int}
    (hwf : boardWFb s.boardData s.boardSize = true)
    (hv : isValidPosition s.boardSize row col = true)
    (hcp : s.currentPlayer ≠ 0) :
    checkWin (placedBoard s row col) row col =
      checkWinDirs (setCell s.boardData row col s.currentPlayer) s.boardSize
        s.currentPlayer row col directions := by
  unfold checkWin placedBoard
  dsimp only
  rw [cellAt_setCell_self hwf hv, if_neg hcp]

/-!
Concrete game scenarios, all built by replaying confirmed placements from a
freshly initialised controller, so every one of them is a reachable state.
-/

/-- Eight alternating moves on a 5 × 5 board: black builds (0,0)…(0,3),
white builds (1,0)…(1,3).  Black is to move and can win at (0,4). -/
def winMoves : List (Int × Int) :=
  [(0, 0), (1, 0), (0, 1), (1, 1), (0, 2), (1, 2), (0, 3), (1, 3)]

def csPreWin : CtrlState := playMoves (mkCtrl 5 1000) winMoves

/-- The state right after black wins at (0,4) from `csPreWin`. -/
def csWon : CtrlState := (applyPlace csPreWin 0 4).1

/-- Ten alternating moves on a 7 × 7 board: black holds (0,0)…(0,3) and
(0,5), white holds (1,0)…(1,3) and (1,5).  Black to move: placing at (0,4)
creates a contiguous horizontal run of six black stones. -/
def ovMoves : List (Int × Int) :=
  [(0, 0), (1, 0), (0, 1), (1, 1), (0, 2), (1, 2), (0, 3), (1, 3), (0, 5), (1, 5)]

def csOverline : CtrlState := playMoves (mkCtrl 7 1000) ovMoves

/-- CLAIM C1 (corrected).  `checkWin` accepts a direction only when its
`count` is exactly 5 (`count === 5` in the source), so a placement wins iff
the maximal contiguous same-player run through the placed cell along one of
the four axis directions has length exactly 5.  A run of 4 therefore does
not win — and, contrary to the claim, an overline run of 6 or more does not
win either. -/
theorem C1_win_iff_run_of_exactly_five (s : LogicState) (row col : Int)
    (hwf : boardWFb s.boardData s.boardSize = true)
    (hcan : canPlaceStone s row col = true)
    (hcp : s.currentPlayer ≠ 0) :
    (placeStone s row col).2.isWin = true ↔
    ∃ d ∈ directions,
      lineLen (setCell s.boardData row col s.currentPlayer) s.boardSize
        s.currentPlayer row col d.1 d.2 = 5 := by
  obtain ⟨_, hv, _⟩ := canPlaceStone_inv hcan
  have hcw := checkWin_placedBoard hwf hv hcp
  rcases hco : checkWin (placedBoard s row col) row col with _ | w
  · rw [placeStone_placed hcan hco, ← checkWinDirs_isSome, ← hcw, hco]
    simp [PlaceResult.isWin]
  · rw [placeStone_win hcan hco, ← checkWinDirs_isSome, ← hcw, hco]
    simp [PlaceResult.isWin]

/-- Witness for C1: in the reachable 5 × 5 state `csPreWin`, black placing at
(0,4) completes a horizontal run of exactly 5 and the placement reports a
win. -/
theorem C1_witness : (placeStone csPreWin.logic 0 4).2.isWin = true :=
  (C1_win_iff_run_of_exactly_five csPreWin.logic 0 4 (by decide) (by decide)
    (by decide)).mpr ⟨(0, 1), by decide, by decide⟩

/-- Counterexample to C1 as stated: in the reachable Playing state
`csOverline`, black legally places at (0,4), creating a contiguous horizontal
run of 6 ≥ 5 through the placed cell, yet `placeStone` does not report a win
(the source tests `count === 5`). -/
theorem C1_counterexample :
    Reachable 7 1000 csOverline ∧
    csOverline.gameState = GState.playing ∧
    canPlaceStone csOverline.logic 0 4 = true ∧
    lineLen (setCell csOverline.logic.boardData 0 4 csOverline.logic.currentPlayer)
      csOverline.logic.boardSize csOverline.logic.currentPlayer 0 4 0 1 = 6 ∧
    (placeStone csOverline.logic 0 4).2.isWin = false :=
  ⟨reachable_playMoves Reachable.init ovMoves, by decide, by decide, by decide, by decide⟩

/-- The board of the spec's 5 × 5 example: player A (black) on
(0,0)…(0,3), player B (white) on (1,0)…(1,2).  The stone distribution of the
example (5 A-stones versus 3 B-stones after A's final move) cannot arise
under the strict turn alternation that `placeStone` enforces, so the position
is set up directly rather than replayed. -/
def exampleBoard : Board :=
  [[1, 1, 1, 1, 0], [2, 2, 2, 0, 0], [0, 0, 0, 0, 0], [0, 0, 0, 0, 0], [0, 0, 0, 0, 0]]

/-- The example position with black (player A) to move. -/
def exampleState : LogicState := ⟨5, exampleBoard, 1, 8, false, none⟩

/-- Counterexample to C7 as stated: A's placement at (0,4) does win, but the
winning line is reported with the just-placed cell first followed by the
cells walked towards (0,0) — which is not the claimed list
[[0,0],[0,1],[0,2],[0,3],[0,4]]. -/
theorem C7_counterexample :
    (placeStone exampleState 0 4).2 =
      .win [(0, 4), (0, 3), (0, 2), (0, 1), (0, 0)] ⟨0, 4, 1, 8⟩ ∧
    (placeStone exampleState 0 4).2 ≠
      .win [(0, 0), (0, 1), (0, 2), (0, 3), (0, 4)] ⟨0, 4, 1, 8⟩ := by
  constructor
  · decide
  · decide

/-- CLAIM C7 (corrected).  On the example position, the final placement at
(0,4) returns a win for player A whose winning line is exactly
[[0,4],[0,3],[0,2],[0,1],[0,0]]: the placed cell first, then the run walked
in decreasing column order. -/
theorem C7_example_win_line :
    (placeStone exampleState 0 4).2 =
      .win [(0, 4), (0, 3), (0, 2), (0, 1), (0, 0)] ⟨0, 4, 1, 8⟩ ∧
    (placeStone exampleState 0 4).1.winner = some 1 ∧
    (placeStone exampleState 0 4).1.gameOver = true := by
  refine ⟨by decide, by decide, by decide⟩

theorem performUndo_concat {cs : CtrlState} {h0 : List MoveData} {m : MoveData}
    (hps : cs.gameState = GState.playing) (hh : cs.history = h0 ++ [m]) :
    performUndo cs =
      ({ cs with
          logic := { cs.logic with
                      boardData := setCell cs.logic.boardData m.row m.col 0,
                      currentPlayer := m.player,
                      stepNumber := m.step,
                      gameOver := false,
                      winner := none },
          history := h0,
          gameState := .playing }, true) := by
  have hne : cs.history ≠ [] := by
    rw [hh]
    simp
  unfold performUndo
  rw [if_neg (by simp [ctrlCanUndo_true hps hne]), hh, List.getLast?_concat,
    List.dropLast_concat]

/-- CLAIM C2 (corrected).  A successful placement whose outcome is not a win,
performed in a Playing state whose history sits strictly below the retention
cap, is exactly inverted by `performUndo`: board cell, current player, step
number, outcome fields, history and phase all return to their prior
snapshot.  (A winning placement is excluded: it is not appended to the
history and the subsequent undo is rejected — see the counterexample.) -/
theorem C2_place_then_undo_restores (cs : CtrlState) (row col : Int) (m : MoveData)
    (hps : cs.gameState = GState.playing)
    (hgo : cs.logic.gameOver = false)
    (hwn : cs.logic.winner = none)
    (hwf : boardWFb cs.logic.boardData cs.logic.boardSize = true)
    (hcapacity : cs.history.length + 1 ≤ cs.maxHistorySize)
    (hres : (applyPlace cs row col).2 = .placed m) :
    performUndo (applyPlace cs row col).1 = (cs, true) := by
  by_cases hcan : canPlaceStone cs.logic row col = true
  · rcases hco : checkWin (placedBoard cs.logic row col) row col with _ | w
    · obtain ⟨_, hv, hcell⟩ := canPlaceStone_inv hcan
      have hlen : cs.history.length < cs.maxHistorySize := by omega
      have hadd := addMove_no_evict cs.history cs.maxHistorySize
        ⟨row, col, cs.logic.currentPlayer, cs.logic.stepNumber⟩ hlen
      have hbd := setCell_restore hwf hv hcell cs.logic.currentPlayer
      rw [applyPlace_placed hcan hco]
      rw [performUndo_concat (by exact hps) (by dsimp only; rw [hadd])]
      dsimp only [placedBoard]
      rw [Prod.mk.injEq]
      refine ⟨?_, rfl⟩
      obtain ⟨logic, history, maxH, gameState, enabled⟩ := cs
      obtain ⟨bs, bd, cp, sn, go, wn⟩ := logic
      dsimp only at hps hgo hwn hbd
      subst hps hgo hwn
      dsimp only
      rw [hbd]
    · rw [applyPlace_win hcan hco] at hres
      simp at hres
  · rw [applyPlace_rejected (by simpa using hcan)] at hres
    simp at hres

/-- Witness for C2: on a fresh 5 × 5 controller, placing at (2,2) and then
undoing returns the exact initial state. -/
theorem C2_witness : performUndo (applyPlace (mkCtrl 5 1000) 2 2).1 = (mkCtrl 5 1000, true) :=
  C2_place_then_undo_restores (mkCtrl 5 1000) 2 2 ⟨2, 2, 1, 1⟩ (by decide) (by decide)
    (by decide) (by decide) (by decide) (by decide)

/-- Counterexample to C2 as stated: in the reachable state `csPreWin` the
placement at (0,4) succeeds (it wins), but the immediately following undo is
rejected — it returns `false`, leaves the whole state untouched, and in
particular the cell (0,4) still holds black's stone instead of being Empty
again. -/
theorem C2_counterexample :
    Reachable 5 1000 csPreWin ∧
    (applyPlace csPreWin 0 4).2.isWin = true ∧
    performUndo csWon = (csWon, false) ∧
    cellAt csWon.logic.boardData 0 4 = 1 :=
  ⟨reachable_playMoves Reachable.init winMoves, by decide, by decide, by decide⟩

/-- CLAIM C3 (corrected).  In every reachable state of a controller whose
board fits below the history cap (as the default 15 × 15 / 1000 config does),
the session's next move number equals the history length plus one; a
successful non-winning placement appends exactly one move, but — contrary to
the claim — a winning placement appends nothing (it emits `gameWin` instead
of the `stonePlaced` event the history listens to), which incidentally
preserves the invariant because the winning branch does not advance the move
number either. -/
theorem C3_move_number_invariant (n maxH : Nat) (cs : CtrlState)
    (hcap : n * n < maxH) (h : Reachable n maxH cs) :
    cs.logic.stepNumber = cs.history.length + 1 ∧
    ∀ row col : Int,
      ((applyPlace cs row col).2.isPlaced = true →
        (applyPlace cs row col).1.history.length = cs.history.length + 1) ∧
      ((applyPlace cs row col).2.isWin = true →
        (applyPlace cs row col).1.history = cs.history) := by
  obtain ⟨hbs, hmax, hwf, hstep, hsteps, hcount, hcp, hhp⟩ := inv_of_reachable hcap h
  refine ⟨hstep, ?_⟩
  intro row col
  by_cases hcan : canPlaceStone cs.logic row col = true
  · rcases hco : checkWin (placedBoard cs.logic row col) row col with _ | w
    · rw [applyPlace_placed hcan hco]
      have hlen : cs.history.length < cs.maxHistorySize := by
        rw [hmax]
        exact lt_of_le_of_lt (le_trans hcount (countNE_le hwf)) hcap
      refine ⟨?_, ?_⟩
      · intro _
        show (addMove cs.history cs.maxHistorySize _).1.length = cs.history.length + 1
        rw [addMove_no_evict _ _ _ hlen]
        simp
      · intro habs
        simp [PlaceResult.isWin] at habs
    · rw [applyPlace_win hcan hco]
      exact ⟨fun habs => by simp [PlaceResult.isPlaced] at habs, fun _ => rfl⟩
  · rw [applyPlace_rejected (by simpa using hcan)]
    exact ⟨fun habs => by simp [PlaceResult.isPlaced] at habs,
      fun habs => by simp [PlaceResult.isWin] at habs⟩

/-- Witness for C3: the fresh default controller satisfies the invariant, and
its first (non-winning) placement appends exactly one move. -/
theorem C3_witness :
    initCtrl.logic.stepNumber = initCtrl.history.length + 1 ∧
    (applyPlace initCtrl 7 7).1.history.length = initCtrl.history.length + 1 := by
  have h := C3_move_number_invariant 15 1000 initCtrl (by decide) Reachable.init
  exact ⟨h.1, (h.2 7 7).1 (by decide)⟩

/-- Counterexample to C3 as stated: the winning placement at (0,4) from the
reachable state `csPreWin` is successful, yet the history stays at 8 moves —
nothing is appended. -/
theorem C3_counterexample :
    Reachable 5 1000 csPreWin ∧
    (applyPlace csPreWin 0 4).2.isWin = true ∧
    csPreWin.history.length = 8 ∧
    (applyPlace csPreWin 0 4).1.history.length = 8 :=
  ⟨reachable_playMoves Reachable.init winMoves, by decide, by decide, by decide⟩

/-- CLAIM C4 (corrected).  `performUndo` succeeds iff the phase is `playing`
AND the history is non-empty — `canUndo` checks `gameState === 'playing'`
first, so undo also fails (with the state untouched) in the `finished` and
`paused` phases even when history remains.  On success it pops the last
move, writes its inverse into the rules-engine fields and sets the phase to
`playing`.  There is no backward transition out of `finished` via undo. -/
theorem C4_undo_success_iff (cs : CtrlState) :
    ((performUndo cs).2 = true ↔ cs.gameState = GState.playing ∧ cs.history ≠ []) ∧
    ((performUndo cs).2 = false → (performUndo cs).1 = cs) ∧
    ((performUndo cs).2 = true →
      (performUndo cs).1.history = cs.history.dropLast ∧
      (performUndo cs).1.gameState = GState.playing ∧
      ∃ m, cs.history.getLast? = some m ∧
        (performUndo cs).1.logic =
          { cs.logic with
              boardData := setCell cs.logic.boardData m.row m.col 0,
              currentPlayer := m.player,
              stepNumber := m.step,
              gameOver := false,
              winner := none }) := by
  by_cases hcu : ctrlCanUndo cs = false
  · have hnot : ¬(cs.gameState = GState.playing ∧ cs.history ≠ []) := by
      intro ⟨hps, hne⟩
      rw [ctrlCanUndo_true hps hne] at hcu
      exact Bool.true_eq_false.mp hcu
    rw [performUndo_fail hcu]
    exact ⟨by simpa using hnot, fun _ => rfl, fun habs => by simp at habs⟩
  · have hcu' : ctrlCanUndo cs = true := by
      cases h : ctrlCanUndo cs
      · exact absurd h hcu
      · rfl
    have hps : cs.gameState = GState.playing := by
      simp only [ctrlCanUndo, Bool.and_eq_true, beq_iff_eq, decide_eq_true_eq] at hcu'
      exact hcu'.1
    have hne : cs.history ≠ [] := by
      simp only [ctrlCanUndo, Bool.and_eq_true, beq_iff_eq, decide_eq_true_eq] at hcu'
      exact List.length_pos.mp hcu'.2
    rw [performUndo_success hps hne]
    refine ⟨by simpa using ⟨hps, hne⟩, fun habs => by simp at habs, fun _ => ?_⟩
    exact ⟨rfl, rfl, cs.history.getLast hne, List.getLast?_eq_getLast _ hne, rfl⟩

/-- Witness for C4: undo succeeds right after the first placement on a fresh
5 × 5 controller. -/
theorem C4_witness : (performUndo (applyPlace (mkCtrl 5 1000) 2 2).1).2 = true :=
  (C4_undo_success_iff (applyPlace (mkCtrl 5 1000) 2 2).1).1.mpr ⟨by decide, by decide⟩

/-- Counterexample to C4 as stated: the reachable finished state `csWon` has
a non-empty history, yet undo fails and does not transition the session back
to `playing` — refuting both the "fails iff History is empty" direction and
the claimed backward transition out of a terminal phase. -/
theorem C4_counterexample :
    Reachable 5 1000 csWon ∧
    csWon.gameState = GState.finished ∧
    csWon.history ≠ [] ∧
    performUndo csWon = (csWon, false) :=
  ⟨(reachable_playMoves Reachable.init winMoves).step (Step.place csPreWin 0 4),
    by decide, by decide, by decide⟩

theorem playMoves_append (cs : CtrlState) (ms1 ms2 : List (Int × Int)) :
    playMoves cs (ms1 ++ ms2) = playMoves (playMoves cs ms1) ms2 := by
  unfold playMoves
  rw [List.foldl_append]

theorem playMoves_cons (cs : CtrlState) (mv : Int × Int) (ms : List (Int × Int)) :
    playMoves cs (mv :: ms) = playMoves (applyPlace cs mv.1 mv.2).1 ms := rfl

/-- CLAIM C5 (corrected).  `importGame` is not all-or-nothing: on well-formed
data it resets the game and replays the embedded moves best-effort, so a move
that fails validation at its replay position is silently skipped — the import
of a batch containing a failing move produces exactly the state of the same
batch with that move removed, and still reports success rather than failing
with `CorruptSave`. -/
theorem C5_import_skips_failing_moves (cs : CtrlState) (pre post : List (Int × Int))
    (mv : Int × Int)
    (hrej : canPlaceStone (playMoves (resetCtrl cs) pre).logic mv.1 mv.2 = false) :
    importGame cs (some (pre ++ mv :: post)) = importGame cs (some (pre ++ post)) ∧
    (importGame cs (some (pre ++ mv :: post))).2 = true := by
  have h1 : playMoves (resetCtrl cs) (pre ++ mv :: post) =
      playMoves (resetCtrl cs) (pre ++ post) := by
    rw [playMoves_append, playMoves_cons, applyPlace_rejected hrej, playMoves_append]
  constructor
  · show (playMoves (resetCtrl cs) (pre ++ mv :: post), true) =
      (playMoves (resetCtrl cs) (pre ++ post), true)
    rw [h1]
  · rfl

/-- Witness for C5: importing the batch [(0,0), (0,0)] — whose second move is
rejected because the cell is already occupied — equals importing just
[(0,0)], and the import reports success. -/
theorem C5_witness :
    importGame (mkCtrl 5 1000) (some ([(0, 0)] ++ (0, 0) :: [])) =
      importGame (mkCtrl 5 1000) (some ([(0, 0)] ++ [])) ∧
    (importGame (mkCtrl 5 1000) (some ([(0, 0)] ++ (0, 0) :: []))).2 = true :=
  C5_import_skips_failing_moves (mkCtrl 5 1000) [(0, 0)] [] (0, 0) (by decide)

/-- The pre-import state for the C5 counterexample: one black stone at
(3,3). -/
def csImportPre : CtrlState := (applyPlace (mkCtrl 5 1000) 3 3).1

/-- Counterexample to C5 as stated: importing a batch whose second move fails
replay validation (duplicate cell (0,0)) into the reachable state
`csImportPre` returns success — not `CorruptSave` — and leaves the core in a
partially-applied state different from its pre-import snapshot. -/
theorem C5_counterexample :
    Reachable 5 1000 csImportPre ∧
    canPlaceStone (playMoves (resetCtrl csImportPre) [(0, 0)]).logic 0 0 = false ∧
    (importGame csImportPre (some [(0, 0), (0, 0)])).2 = true ∧
    (importGame csImportPre (some [(0, 0), (0, 0)])).1 ≠ csImportPre :=
  ⟨Reachable.init.step (Step.place (mkCtrl 5 1000) 3 3), by decide, by decide, by decide⟩

/-- 25 alternating moves that fill the whole 5 × 5 board with the pattern
11221 / 22112 / 11221 / 22112 / 11221, which contains no contiguous run of 5
anywhere, so no placement ever wins and the board ends completely full. -/
def fillMoves : List (Int × Int) :=
  [(0, 0), (0, 2), (0, 1), (0, 3), (0, 4), (1, 0), (1, 2), (1, 1), (1, 3), (1, 4),
   (2, 0), (2, 2), (2, 1), (2, 3), (2, 4), (3, 0), (3, 2), (3, 1), (3, 3), (3, 4),
   (4, 0), (4, 2), (4, 1), (4, 3), (4, 4)]

def csFill : CtrlState := playMoves (mkCtrl 5 1000) fillMoves

/-- CLAIM C6 (corrected).  `isDraw` returns true iff the game is over with no
winner recorded (a configuration normal play never produces) or the board is
completely full — including when the board-filling move won, since the full-
board scan ignores the winner.  Moreover `placeStone` never produces a Draw
outcome: a successful non-winning placement leaves `gameOver` and `winner`
untouched, even when it fills the last empty cell. -/
theorem C6_draw_characterisation :
    (∀ s : LogicState,
      isDraw s = true ↔ (s.gameOver = true ∧ s.winner = none) ∨ boardFull s = true) ∧
    (∀ (s : LogicState) (row col : Int), (placeStone s row col).2.isWin = false →
      (placeStone s row col).1.gameOver = s.gameOver ∧
      (placeStone s row col).1.winner = s.winner) := by
  constructor
  · intro s
    unfold isDraw
    split
    · rename_i hg
      simp only [Bool.and_eq_true, beq_iff_eq] at hg
      simp [hg.1, hg.2]
    · rename_i hg
      constructor
      · intro hf
        exact Or.inr hf
      · rintro (⟨h1, h2⟩ | h2)
        · exact absurd (by simp [h1, h2]) hg
        · exact h2
  · intro s row col hnw
    by_cases hcan : canPlaceStone s row col = true
    · rcases hco : checkWin (placedBoard s row col) row col with _ | w
      · rw [placeStone_placed hcan hco]
        exact ⟨rfl, rfl⟩
      · rw [placeStone_win hcan hco] at hnw
        simp [PlaceResult.isWin] at hnw
    · rw [placeStone_rejected (by simpa using hcan)]
      exact ⟨rfl, rfl⟩

set_option maxRecDepth 100000 in
/-- Witness for C6: the completely filled no-win board reports a draw, and a
non-winning placement on a fresh board leaves `gameOver` unchanged. -/
theorem C6_witness :
    isDraw csFill.logic = true ∧
    (placeStone (freshLogic 5) 2 2).1.gameOver = (freshLogic 5).gameOver := by
  have h := C6_draw_characterisation
  exact ⟨(h.1 csFill.logic).mpr (Or.inr (by decide)),
    (h.2 (freshLogic 5) 2 2 (by decide)).1⟩

set_option maxRecDepth 100000 in
/-- Counterexample to C6 as stated: replaying `fillMoves` from a fresh 5 × 5
controller, the 25th placement successfully fills the last empty cell without
producing a winning line, and `isDraw()` then reports true — but the game is
NOT over (`gameOver` stays false), contradicting the claim that such a
placement ends the game. -/
theorem C6_counterexample :
    Reachable 5 1000 csFill ∧
    (applyPlace (playMoves (mkCtrl 5 1000) (fillMoves.take 24)) 4 4).2.isPlaced = true ∧
    boardFull csFill.logic = true ∧
    isDraw csFill.logic = true ∧
    isGameOver csFill.logic = false :=
  ⟨reachable_playMoves Reachable.init fillMoves, by decide, by decide, by decide, by decide⟩

/-- CLAIM C8 (confirmed).  Pausing a playing session disables interaction, so
while the phase is `paused` every board click is ignored (no placement
reaches the rules engine) and every undo call is rejected with a `false`
result — the code's form of the spec's `GameNotActive` rejection — leaving
board, session and history untouched in both cases. -/
theorem C8_paused_rejects_placement_and_undo (cs : CtrlState)
    (hps : cs.gameState = GState.playing) :
    (pauseGame cs).2 = true ∧
    (pauseGame cs).1.gameState = GState.paused ∧
    (∀ row col : Int, clickPlace (pauseGame cs).1 row col = (pauseGame cs).1) ∧
    performUndo (pauseGame cs).1 = ((pauseGame cs).1, false) := by
  have hpg : pauseGame cs = ({ cs with gameState := .paused, enabled := false }, true) := by
    unfold pauseGame
    rw [if_pos (by simp [hps])]
  rw [hpg]
  refine ⟨rfl, rfl, ?_, ?_⟩
  · intro row col
    simp [clickPlace]
  · exact performUndo_fail (by simp [ctrlCanUndo])

/-- Witness for C8: pausing a fresh 5 × 5 controller, a click at (2,2) is
ignored and undo is rejected with the state unchanged. -/
theorem C8_witness :
    clickPlace (pauseGame (mkCtrl 5 1000)).1 2 2 = (pauseGame (mkCtrl 5 1000)).1 ∧
    performUndo (pauseGame (mkCtrl 5 1000)).1 = ((pauseGame (mkCtrl 5 1000)).1, false) := by
  have h := C8_paused_rejects_placement_and_undo (mkCtrl 5 1000) (by decide)
  exact ⟨h.2.2.1 2 2, h.2.2.2⟩

/-- CLAIM C9 (corrected).  `addMove` keeps the history within the configured
cap by shifting the oldest entry off the front when an append would exceed
it, but — contrary to the claim — this eviction is silent: the only event an
append ever emits is `moveAdded`, whether or not an eviction happened
(`historyTruncated` is emitted only by an explicit `setMaxHistorySize`
reduction). -/
theorem C9_append_bounded_but_eviction_silent (h : List MoveData) (maxSize : Nat)
    (m : MoveData) (hle : h.length ≤ maxSize) :
    (addMove h maxSize m).1.length ≤ maxSize ∧
    (addMove h maxSize m).2 = [.moveAdded m] ∧
    (h.length < maxSize → (addMove h maxSize m).1 = h ++ [m]) ∧
    (h.length = maxSize → (addMove h maxSize m).1 = (h ++ [m]).drop 1) := by
  unfold addMove
  dsimp only
  by_cases hgt : (h ++ [m]).length > maxSize
  · rw [if_pos hgt]
    rw [List.length_append] at hgt
    refine ⟨?_, rfl, ?_, fun _ => rfl⟩
    · rw [List.length_drop, List.length_append]
      simp only [List.length_cons, List.length_nil]
      omega
    · intro hlt
      simp only [List.length_cons, List.length_nil] at hgt
      omega
  · rw [if_neg hgt]
    rw [List.length_append] at hgt
    simp only [List.length_cons, List.length_nil] at hgt
    refine ⟨?_, rfl, fun _ => rfl, ?_⟩
    · rw [List.length_append]
      simp only [List.length_cons, List.length_nil]
      omega
    · intro heq
      omega

/-- Witness for C9: with cap 1, appending a second move keeps the length at
1 and emits only `moveAdded`. -/
theorem C9_witness :
    (addMove [⟨0, 0, 1, 1⟩] 1 ⟨0, 1, 2, 2⟩).1.length ≤ 1 ∧
    (addMove [⟨0, 0, 1, 1⟩] 1 ⟨0, 1, 2, 2⟩).2 = [.moveAdded ⟨0, 1, 2, 2⟩] := by
  have h := C9_append_bounded_but_eviction_silent [⟨0, 0, 1, 1⟩] 1 ⟨0, 1, 2, 2⟩ (by decide)
  exact ⟨h.1, h.2.1⟩

/-- Counterexample to C9 as stated: with cap 1, appending a second move
evicts the oldest entry, yet the call emits exactly the same single
`moveAdded` event as a non-evicting append — no eviction is signalled to
observers. -/
theorem C9_counterexample :
    addMove [⟨0, 0, 1, 1⟩] 1 ⟨0, 1, 2, 2⟩ = ([⟨0, 1, 2, 2⟩], [.moveAdded ⟨0, 1, 2, 2⟩]) ∧
    (addMove ([] : List MoveData) 5 ⟨0, 1, 2, 2⟩).2 = [.moveAdded ⟨0, 1, 2, 2⟩] :=
  ⟨by decide, by decide⟩

/-- CLAIM C10 (confirmed).  `getStone` is total over all integer coordinate
pairs: it returns `none` (the source's `null`) exactly when (row, col) is out
of bounds and the cell occupant otherwise.  It is read-only by construction:
the embedding maps it to a pure observer that returns a value without
producing a successor state. -/
theorem C10_getStone_total_readonly (s : LogicState) (row col : Int) :
    (getStone s row col = none ↔ isValidPosition s.boardSize row col = false) ∧
    (isValidPosition s.boardSize row col = true →
      getStone s row col = some (cellAt s.boardData row col)) := by
  unfold getStone
  cases h : isValidPosition s.boardSize row col with
  | false => simp [h]
  | true => simp [h]

/-- Witness for C10: on a fresh 5 × 5 board, (-1, 0) is out of bounds and
yields `none`, while (2, 3) is in bounds and yields the Empty occupant. -/
theorem C10_witness :
    getStone (freshLogic 5) (-1) 0 = none ∧ getStone (freshLogic 5) 2 3 = some 0 := by
  have h1 := C10_getStone_total_readonly (freshLogic 5) (-1) 0
  have h2 := C10_getStone_total_readonly (freshLogic 5) 2 3
  exact ⟨h1.1.mpr (by decide), (h2.2 (by decide)).trans (by decide)⟩

end Gomoku
